import Mathlib

/-!
# Spectra: the dense symmetric matrix operator `DenseSymMatProd`

A shallow embedding of `include/MatOp/DenseSymMatProd.h`.

* The definitions are generic in the scalar type and only use its `0`, `+` and `*`.
  Exact arithmetic is a commutative semiring `R`; the special values of IEEE 754
  arithmetic (infinities and NaN) are the type `IeeeVal`.
* A pointer is modelled by the buffer it points to, a `List R` starting at the
  pointed-to element.  Every buffer access is checked: reading or writing past
  the end of a buffer (or outside the dimensions of a view) yields `none`.
* Dimensions (`Eigen::Index`) are natural numbers; `rows()` and `cols()` return
  them converted to a 32-bit `int`.
* The Eigen expressions used by the class are modelled by their coefficient-wise
  meaning: `Map` is a contiguous column-major view, `Ref` a column-major view
  with an outer stride, `selfadjointView<Uplo>()` reads the designated triangle
  and mirrors it, and `y.noalias() = A * x` overwrites `y` with the product.
-/

namespace Spectra

/-- Triangle designation, the template parameter `Uplo` (`Eigen::Lower` or
`Eigen::Upper`; the class defaults to `Eigen::Lower`). -/
inductive UpLo where
  | Lower
  | Upper
deriving DecidableEq

/-- The constructor's parameter type `const Eigen::Ref<const Matrix>`: a
column-major view given by a base pointer, the dimensions and the outer stride
(the distance between the starts of two consecutive columns). -/
structure ConstGenericMatrix (R : Type) where
  data : List R
  rows : Nat
  cols : Nat
  outerStride : Nat

/-- Entry `(i, j)` of a `Ref` view: `data[i + j * outerStride]`. -/
def ConstGenericMatrix.coeff {R : Type} (mat_ : ConstGenericMatrix R) (i j : Nat) : Option R :=
  if i < mat_.rows ∧ j < mat_.cols then mat_.data[i + j * mat_.outerStride]? else none

/-- The member type `Eigen::Map<const Matrix>`: a column-major view without a
stride parameter, so consecutive columns are `rows` elements apart. -/
structure MapMat (R : Type) where
  data : List R
  rows : Nat
  cols : Nat

/-- Entry `(i, j)` of a `Map` view: `data[i + j * rows]`. -/
def MapMat.coeff {R : Type} (m : MapMat R) (i j : Nat) : Option R :=
  if i < m.rows ∧ j < m.cols then m.data[i + j * m.rows]? else none

/-- The type `Eigen::Map<Vector>`: a view of the first `size` elements of a
buffer. -/
structure MapVec (R : Type) where
  data : List R
  size : Nat

/-- Read element `k` of a vector view. -/
def MapVec.coeff {R : Type} (v : MapVec R) (k : Nat) : Option R :=
  if k < v.size then v.data[k]? else none

/-- Write element `k` of a vector view; the write goes to the underlying buffer. -/
def MapVec.assignCoeff {R : Type} (v : MapVec R) (k : Nat) (a : R) : Option (MapVec R) :=
  if k < v.size ∧ k < v.data.length then some ⟨v.data.set k a, v.size⟩ else none

/-- The class `DenseSymMatProd<Scalar, Uplo>`: the template parameter `Uplo` and
the single data member `m_mat`. -/
structure DenseSymMatProd (R : Type) where
  Uplo : UpLo
  m_mat : MapMat R

/-- The constructor `DenseSymMatProd(ConstGenericMatrix& mat_)`:
`m_mat(mat_.data(), mat_.rows(), mat_.cols())`. -/
def DenseSymMatProd.ctor {R : Type} (Uplo : UpLo) (mat_ : ConstGenericMatrix R) :
    DenseSymMatProd R :=
  { Uplo := Uplo, m_mat := { data := mat_.data, rows := mat_.rows, cols := mat_.cols } }

/-- The conversion of a non-negative `Eigen::Index` value to the 32-bit `int` that
`rows()` and `cols()` return: the value modulo `2 ^ 32`, taken in the range from
`-2 ^ 31` to `2 ^ 31 - 1`. -/
def narrowToInt (k : Nat) : Int :=
  if k % 2 ^ 32 < 2 ^ 31 then ((k % 2 ^ 32 : Nat) : Int) else ((k % 2 ^ 32 : Nat) : Int) - 2 ^ 32

/-- The accessor `int rows() const`: `m_mat.rows()`, converted to `int`. -/
def DenseSymMatProd.rows {R : Type} (op : DenseSymMatProd R) : Int := narrowToInt op.m_mat.rows

/-- The accessor `int cols() const`: `m_mat.cols()`, converted to `int`. -/
def DenseSymMatProd.cols {R : Type} (op : DenseSymMatProd R) : Int := narrowToInt op.m_mat.cols

/-- Entry `(i, j)` of `m.selfadjointView<Uplo>()`: the stored entry when `(i, j)`
lies in the designated triangle (diagonal included), the stored entry `(j, i)`
otherwise. -/
def selfadjointView {R : Type} (Uplo : UpLo) (m : MapMat R) (i j : Nat) : Option R :=
  match Uplo with
  | UpLo.Lower => if j ≤ i then m.coeff i j else m.coeff j i
  | UpLo.Upper => if i ≤ j then m.coeff i j else m.coeff j i

/-- Row `i` of the product `m.selfadjointView<Uplo>() * x`, accumulated from zero
over the columns `0, ..., k - 1`. -/
def rowDot {R : Type} [Zero R] [Add R] [Mul R] (Uplo : UpLo) (m : MapMat R) (x : MapVec R)
    (i : Nat) : Nat → Option R
  | 0 => some 0
  | j + 1 => do
    let acc ← rowDot Uplo m x i j
    let a ← selfadjointView Uplo m i j
    let xj ← x.coeff j
    pure (acc + a * xj)

/-- The assignment `y.noalias() = m.selfadjointView<Uplo>() * x`, restricted to the
rows `0, ..., k - 1`: each of these elements of `y` is overwritten with the
corresponding row of the product. -/
def assignProduct {R : Type} [Zero R] [Add R] [Mul R] (Uplo : UpLo) (m : MapMat R)
    (x : MapVec R) : Nat → MapVec R → Option (MapVec R)
  | 0, y => some y
  | i + 1, y => do
    let y1 ← assignProduct Uplo m x i y
    let v ← rowDot Uplo m x i m.cols
    y1.assignCoeff i v

/-- The method `perform_op(x_in, y_out)`: maps `x_in` as a vector of `m_mat.cols()`
elements and `y_out` as a vector of `m_mat.rows()` elements, then assigns the
product of the self-adjoint view of `m_mat` with `x` to `y`.  The result is the
content of the buffer `y_out` after the call. -/
def DenseSymMatProd.perform_op {R : Type} [Zero R] [Add R] [Mul R] (op : DenseSymMatProd R)
    (x_in y_out : List R) : Option (List R) :=
  let x : MapVec R := { data := x_in, size := op.m_mat.cols }
  let y : MapVec R := { data := y_out, size := op.m_mat.rows }
  (assignProduct op.Uplo op.m_mat x op.m_mat.rows y).map MapVec.data

/-- The explicit state around a call: the operator (matrix buffer and
dimensions), the input buffer and the output buffer. -/
structure State (R : Type) where
  op : DenseSymMatProd R
  x_in : List R
  y_out : List R

/-- One call `op.perform_op(x_in, y_out)` over the explicit state.  The method is
`const` and `m_mat` is a view of constant data; the only assignment goes to the
vector mapped on `y_out`. -/
def State.call {R : Type} [Zero R] [Add R] [Mul R] (s : State R) : Option (State R) :=
  match s.op.perform_op s.x_in s.y_out with
  | some y1 => some { op := s.op, x_in := s.x_in, y_out := y1 }
  | none => none

/-- A sequence of calls on the same operator and output buffer, the caller
supplying the input vector of each call. -/
def State.calls {R : Type} [Zero R] [Add R] [Mul R] (s : State R) :
    List (List R) → Option (State R)
  | [] => some s
  | x :: xs =>
    match State.call { op := s.op, x_in := x, y_out := s.y_out } with
    | some s1 => State.calls s1 xs
    | none => none

/-- The values of an IEEE 754 scalar type (such as `double`) that matter for the
propagation of special values: finite values, the two infinities and NaN.  The
finite values are integers; small integers are exactly representable and their
sums and products are computed without rounding.  Signed zeros are identified. -/
inductive IeeeVal where
  | fin (v : Int)
  | pinf
  | ninf
  | nan
deriving DecidableEq

/-- IEEE 754 addition on `IeeeVal`: NaN propagates, the sum of opposite infinities
is NaN, an infinity absorbs finite values. -/
def IeeeVal.add : IeeeVal → IeeeVal → IeeeVal
  | IeeeVal.fin a, IeeeVal.fin b => IeeeVal.fin (a + b)
  | IeeeVal.fin _, IeeeVal.pinf => IeeeVal.pinf
  | IeeeVal.fin _, IeeeVal.ninf => IeeeVal.ninf
  | IeeeVal.pinf, IeeeVal.fin _ => IeeeVal.pinf
  | IeeeVal.ninf, IeeeVal.fin _ => IeeeVal.ninf
  | IeeeVal.pinf, IeeeVal.pinf => IeeeVal.pinf
  | IeeeVal.ninf, IeeeVal.ninf => IeeeVal.ninf
  | IeeeVal.pinf, IeeeVal.ninf => IeeeVal.nan
  | IeeeVal.ninf, IeeeVal.pinf => IeeeVal.nan
  | IeeeVal.nan, _ => IeeeVal.nan
  | _, IeeeVal.nan => IeeeVal.nan

/-- The product of the finite value `a` and an infinity, `positive` telling the
sign of the infinity: NaN when `a` is zero, otherwise the infinity of the product
sign. -/
def IeeeVal.finTimesInf (a : Int) (positive : Bool) : IeeeVal :=
  if a = 0 then IeeeVal.nan
  else if (0 < a) = positive then IeeeVal.pinf
  else IeeeVal.ninf

/-- IEEE 754 multiplication on `IeeeVal`: NaN propagates and zero times an
infinity is NaN. -/
def IeeeVal.mul : IeeeVal → IeeeVal → IeeeVal
  | IeeeVal.fin a, IeeeVal.fin b => IeeeVal.fin (a * b)
  | IeeeVal.fin a, IeeeVal.pinf => IeeeVal.finTimesInf a true
  | IeeeVal.fin a, IeeeVal.ninf => IeeeVal.finTimesInf a false
  | IeeeVal.pinf, IeeeVal.fin b => IeeeVal.finTimesInf b true
  | IeeeVal.ninf, IeeeVal.fin b => IeeeVal.finTimesInf b false
  | IeeeVal.pinf, IeeeVal.pinf => IeeeVal.pinf
  | IeeeVal.ninf, IeeeVal.ninf => IeeeVal.pinf
  | IeeeVal.pinf, IeeeVal.ninf => IeeeVal.ninf
  | IeeeVal.ninf, IeeeVal.pinf => IeeeVal.ninf
  | IeeeVal.nan, _ => IeeeVal.nan
  | _, IeeeVal.nan => IeeeVal.nan

instance : Zero IeeeVal := ⟨IeeeVal.fin 0⟩

instance : One IeeeVal := ⟨IeeeVal.fin 1⟩

instance : Add IeeeVal := ⟨IeeeVal.add⟩

instance : Mul IeeeVal := ⟨IeeeVal.mul⟩

/-! ## Specification-side definitions -/

/-- The buffer `d` holds the `n`-by-`n` matrix `M` in column-major order with
outer stride `s`: entry `(i, j)` is `d[i + j * s]`. -/
def Stores {R : Type} (d : List R) (n s : Nat) (M : Nat → Nat → R) : Prop :=
  ∀ i < n, ∀ j < n, d[i + j * s]? = some (M i j)

/-- The full symmetric matrix reconstructed from the designated triangle of `M`:
with `Lower`, `M i j` when `i ≥ j` and `M j i` when `i < j`; with `Upper`,
`M i j` when `i ≤ j` and `M j i` when `i > j`. -/
def reconstructed {R : Type} (Uplo : UpLo) (M : Nat → Nat → R) (i j : Nat) : R :=
  match Uplo with
  | UpLo.Lower => if i ≥ j then M i j else M j i
  | UpLo.Upper => if i ≤ j then M i j else M j i

instance {R : Type} [DecidableEq R] (d : List R) (n s : Nat) (M : Nat → Nat → R) :
    Decidable (Stores d n s M) :=
  inferInstanceAs (Decidable (∀ i < n, ∀ j < n, d[i + j * s]? = some (M i j)))

/-- The pair `(i, j)` lies in the designated triangle, diagonal included. -/
def inTriangle (Uplo : UpLo) (i j : Nat) : Prop :=
  match Uplo with
  | UpLo.Lower => j ≤ i
  | UpLo.Upper => i ≤ j

instance (Uplo : UpLo) (i j : Nat) : Decidable (inTriangle Uplo i j) :=
  match Uplo with
  | UpLo.Lower => inferInstanceAs (Decidable (j ≤ i))
  | UpLo.Upper => inferInstanceAs (Decidable (i ≤ j))

/-- Two matrices agree on the designated triangle of their leading `n`-by-`n`
block. -/
def AgreeOn (Uplo : UpLo) (n : Nat) {R : Type} (M1 M2 : Nat → Nat → R) : Prop :=
  ∀ i < n, ∀ j < n, inTriangle Uplo i j → M1 i j = M2 i j

instance (Uplo : UpLo) (n : Nat) {R : Type} [DecidableEq R] (M1 M2 : Nat → Nat → R) :
    Decidable (AgreeOn Uplo n M1 M2) :=
  inferInstanceAs (Decidable (∀ i < n, ∀ j < n, inTriangle Uplo i j → M1 i j = M2 i j))

/-- The leading `n`-by-`n` block of `M` is symmetric. -/
def IsSymm {R : Type} (n : Nat) (M : Nat → Nat → R) : Prop :=
  ∀ i < n, ∀ j < n, M i j = M j i

instance {R : Type} [DecidableEq R] (n : Nat) (M : Nat → Nat → R) : Decidable (IsSymm n M) :=
  inferInstanceAs (Decidable (∀ i < n, ∀ j < n, M i j = M j i))

/-- The ordinary dense product `M * x`, computed from all `n * n` entries of `M`:
element `i` is the sum over all `j < n` of `M i j * x[j]`. -/
def denseProduct {R : Type} [CommSemiring R] (n : Nat) (M : Nat → Nat → R) (x : List R) :
    List R :=
  (List.range n).map fun i => ∑ j ∈ Finset.range n, M i j * x.getD j 0

/-- The vector `a * x1 + b * x2`, component by component. -/
def linComb {R : Type} [Add R] [Mul R] (a b : R) (x1 x2 : List R) : List R :=
  List.zipWith (fun u v => a * u + b * v) x1 x2

/-- The dot product of two vectors. -/
def dot {R : Type} [CommSemiring R] (a b : List R) : R :=
  ∑ i ∈ Finset.range (min a.length b.length), a.getD i 0 * b.getD i 0

/-- The column-major buffer of the 3-by-3 scenario: diagonal `[2, 3, 4]`, entries
`(1,0) = 1`, `(2,0) = 0`, `(2,1) = 1` below the diagonal and the given values
`u01`, `u02`, `u12` in the strict upper triangle. -/
def scenarioBuf {R : Type} [CommSemiring R] (u01 u02 u12 : R) : List R :=
  [2, 1, 0, u01, 3, 1, u02, u12, 4]

/-- The operator over the contiguous `n`-by-`n` view of the buffer `d`. -/
def squareOp {R : Type} (Uplo : UpLo) (d : List R) (n : Nat) : DenseSymMatProd R :=
  DenseSymMatProd.ctor Uplo { data := d, rows := n, cols := n, outerStride := n }

/-! ## Concrete inputs used to instantiate the theorems -/

/-- The non-symmetric matrix with rows `[1, 3]` and `[2, 4]`; stored column-major
it is the buffer `[1, 2, 3, 4]`. -/
def exampleM : Nat → Nat → Int := fun i j => 1 + i + 2 * j

/-- The symmetric matrix with rows `[2, 1]` and `[1, 3]`. -/
def exampleS : Nat → Nat → Int := fun i j => if i = j then 2 + i else 1

/-- The column-major buffer of `exampleM`. -/
def exampleBuf : List Int := [1, 2, 3, 4]

/-- A vector of length two. -/
def exampleX : List Int := [5, 6]

/-- A second vector of length two. -/
def exampleX2 : List Int := [7, 8]

/-- An output buffer of length two with arbitrary prior content. -/
def exampleY : List Int := [9, 9]

/-- The matrix `exampleM` with its strict upper triangle overwritten by `99`. -/
def examplePoisoned : Nat → Nat → Int := fun i j => if i < j then 99 else exampleM i j

/-- The matrix `exampleS` with its strict upper triangle overwritten by `77`. -/
def exampleLowerOnly : Nat → Nat → Int := fun i j => if i < j then 77 else exampleS i j

/-- The matrix `exampleS` with its strict lower triangle overwritten by `88`. -/
def exampleUpperOnly : Nat → Nat → Int := fun i j => if j < i then 88 else exampleS i j

/-- A 2-by-3 view of a contiguous buffer of six elements. -/
def exampleRect : ConstGenericMatrix Int :=
  { data := [1, 2, 3, 4, 5, 6], rows := 2, cols := 3, outerStride := 2 }

/-- The top-left 2-by-2 block of a 3-by-3 column-major matrix: base pointer at the
first element, outer stride 3. -/
def exampleStrided : ConstGenericMatrix Int :=
  { data := [1, 2, 3, 4, 5, 6, 7, 8, 9], rows := 2, cols := 2, outerStride := 3 }

/-- The entries of the view `exampleStrided`: rows `[1, 4]` and `[2, 5]`. -/
def exampleStridedM : Nat → Nat → Int := fun i j => 1 + i + 3 * j

/-- A second output buffer of length two, with another prior content. -/
def exampleY2 : List Int := [0, 1]

/-- An output buffer of length three. -/
def exampleY3 : List Int := [7, 7, 7]

/-- The column-major buffer of the transpose of `exampleM`. -/
def exampleBufT : List Int := [1, 3, 2, 4]

/-- A view with `2 ^ 32` rows and no column; it needs no storage. -/
def exampleWide : ConstGenericMatrix Int :=
  { data := [], rows := 4294967296, cols := 0, outerStride := 4294967296 }

/-! ## Helper lemmas -/

section Helpers

variable {R : Type} [CommSemiring R]

/-- A dimension within the range of `int` is returned unchanged. -/
theorem narrowToInt_of_lt (k : Nat) (h : k < 2 ^ 31) : narrowToInt k = (k : Int) := by
  have h2 : k % 2 ^ 32 = k := Nat.mod_eq_of_lt (by omega)
  unfold narrowToInt
  rw [h2, if_pos h]

/-- An `n`-by-`n` view with storage has `n` within the range of `int` as soon as
its buffer, with scalars of two bytes or more, is an object of at most
`2 ^ 63 - 1` bytes. -/
theorem dim_lt_of_storage {S : Type} (mat_ : ConstGenericMatrix S) (n : Nat)
    (hd : n * n ≤ mat_.data.length) (hobj : 2 * mat_.data.length < 2 ^ 63) : n < 2 ^ 31 := by
  by_contra hcon
  have h1 : 2 ^ 31 ≤ n := Nat.le_of_not_lt hcon
  have h2 : 2 ^ 31 * 2 ^ 31 ≤ n * n := Nat.mul_le_mul h1 h1
  omega

/-- Beyond the range of `int` the accessors do not return the dimension: for the
view with `2 ^ 32` rows and no column both return `0`. -/
theorem rows_narrowed_example :
    (DenseSymMatProd.ctor UpLo.Lower exampleWide).rows = 0
      ∧ (DenseSymMatProd.ctor UpLo.Lower exampleWide).cols = 0 := by
  decide

/-- Reading inside a vector view of a buffer that is long enough succeeds. -/
theorem MapVec.coeff_of_lt (x : List R) (n j : Nat) (hj : j < n) (hx : n ≤ x.length) :
    MapVec.coeff { data := x, size := n } j = some (x.getD j 0) := by
  have hj2 : j < x.length := lt_of_lt_of_le hj hx
  simp [MapVec.coeff, hj, List.getD, List.getElem?_eq_getElem hj2]

omit [CommSemiring R] in
/-- On a stored square matrix the self-adjoint view is the reconstructed matrix. -/
theorem selfadjointView_of_stores (Uplo : UpLo) (d : List R) (n : Nat) (M : Nat → Nat → R)
    (hM : Stores d n n M) (i j : Nat) (hi : i < n) (hj : j < n) :
    selfadjointView Uplo { data := d, rows := n, cols := n } i j
      = some (reconstructed Uplo M i j) := by
  cases Uplo
  · by_cases h : j ≤ i
    · simp [selfadjointView, reconstructed, MapMat.coeff, h, hi, hj, hM i hi j hj]
    · simp [selfadjointView, reconstructed, MapMat.coeff, h, hi, hj, hM j hj i hi]
  · by_cases h : i ≤ j
    · simp [selfadjointView, reconstructed, MapMat.coeff, h, hi, hj, hM i hi j hj]
    · simp [selfadjointView, reconstructed, MapMat.coeff, h, hi, hj, hM j hj i hi]

/-- The accumulation loop of one row computes the finite sum of the products. -/
theorem rowDot_eq_sum (Uplo : UpLo) (m : MapMat R) (x : MapVec R) (i : Nat)
    (a xv : Nat → R) (k : Nat)
    (ha : ∀ j < k, selfadjointView Uplo m i j = some (a j))
    (hx : ∀ j < k, x.coeff j = some (xv j)) :
    rowDot Uplo m x i k = some (∑ j ∈ Finset.range k, a j * xv j) := by
  induction k with
  | zero => simp [rowDot]
  | succ k ih =>
    have h1 := ih (fun j hj => ha j (Nat.lt_succ_of_lt hj)) (fun j hj => hx j (Nat.lt_succ_of_lt hj))
    simp [rowDot, h1, ha k (Nat.lt_succ_self k), hx k (Nat.lt_succ_self k),
      Finset.sum_range_succ]

/-- The assignment loop overwrites exactly the first `k` elements of the output
buffer with the rows of the product and keeps the rest. -/
theorem assignProduct_spec (Uplo : UpLo) (m : MapMat R) (x : MapVec R) (v : Nat → R)
    (k : Nat) (y : MapVec R)
    (hv : ∀ i < k, rowDot Uplo m x i m.cols = some (v i))
    (hk : k ≤ y.size) (hlen : k ≤ y.data.length) :
    ∃ y1, assignProduct Uplo m x k y = some y1 ∧ y1.size = y.size
      ∧ y1.data.length = y.data.length
      ∧ (∀ i < k, y1.data[i]? = some (v i))
      ∧ (∀ i, k ≤ i → y1.data[i]? = y.data[i]?) := by
  induction k with
  | zero => exact ⟨y, rfl, rfl, rfl, fun i hi => absurd hi (Nat.not_lt_zero i), fun _ _ => rfl⟩
  | succ k ih =>
    obtain ⟨y0, h0, hs, hl, hlo, hhi⟩ :=
      ih (fun i hi => hv i (Nat.lt_succ_of_lt hi)) (Nat.le_of_succ_le hk)
        (Nat.le_of_succ_le hlen)
    have hks : k < y0.size := by omega
    have hkl : k < y0.data.length := by omega
    refine ⟨{ data := y0.data.set k (v k), size := y0.size }, ?_, hs, ?_, ?_, ?_⟩
    · simp [assignProduct, h0, hv k (Nat.lt_succ_self k), MapVec.assignCoeff, hks, hkl]
    · simpa using hl
    · intro i hi
      by_cases hik : i = k
      · subst hik
        simp [List.getElem?_set, hkl]
      · have : i < k := by omega
        simp [List.getElem?_set, Ne.symm hik, hlo i this]
    · intro i hi
      have hne : k ≠ i := by omega
      simp [List.getElem?_set, hne, hhi i (by omega)]

/-- Full description of `perform_op` on a square, contiguously stored matrix:
the call succeeds, the first `n` elements of the output buffer become the
product with the reconstructed matrix and the remaining elements are kept. -/
theorem perform_op_square (Uplo : UpLo) (n : Nat) (d x y : List R) (M : Nat → Nat → R)
    (hM : Stores d n n M) (hx : n ≤ x.length) (hy : n ≤ y.length) :
    ∃ y1, (squareOp Uplo d n).perform_op x y = some y1 ∧ y1.length = y.length
      ∧ (∀ i < n, y1[i]? = some (∑ j ∈ Finset.range n, reconstructed Uplo M i j * x.getD j 0))
      ∧ (∀ i, n ≤ i → y1[i]? = y[i]?) := by
  have hrow : ∀ i < n, rowDot Uplo { data := d, rows := n, cols := n }
      { data := x, size := n } i n
        = some (∑ j ∈ Finset.range n, reconstructed Uplo M i j * x.getD j 0) := by
    intro i hi
    exact rowDot_eq_sum Uplo _ _ i (fun j => reconstructed Uplo M i j) (fun j => x.getD j 0) n
      (fun j hj => selfadjointView_of_stores Uplo d n M hM i j hi hj)
      (fun j hj => MapVec.coeff_of_lt x n j hj hx)
  obtain ⟨y1, h1, _, hl, hlo, hhi⟩ :=
    assignProduct_spec Uplo { data := d, rows := n, cols := n } { data := x, size := n }
      (fun i => ∑ j ∈ Finset.range n, reconstructed Uplo M i j * x.getD j 0) n
      { data := y, size := n } hrow (le_refl n) hy
  refine ⟨y1.data, ?_, hl, hlo, hhi⟩
  simp [DenseSymMatProd.perform_op, squareOp, DenseSymMatProd.ctor, h1]

/-- The output of `perform_op` as a list, when the output buffer has exactly `n`
elements: it is the dense product with the reconstructed matrix. -/
theorem perform_op_square_eq (Uplo : UpLo) (n : Nat) (d x y : List R) (M : Nat → Nat → R)
    (hM : Stores d n n M) (hx : n ≤ x.length) (hy : y.length = n) :
    (squareOp Uplo d n).perform_op x y = some (denseProduct n (reconstructed Uplo M) x) := by
  obtain ⟨y1, h1, hl, hlo, _⟩ := perform_op_square Uplo n d x y M hM hx (le_of_eq hy.symm)
  rw [h1]
  congr 1
  apply List.ext_getElem?
  intro i
  by_cases hi : i < n
  · rw [hlo i hi]
    simp [denseProduct, List.getElem?_map, List.getElem?_range hi]
  · have h2 : y1.length ≤ i := by omega
    have h3 : (denseProduct n (reconstructed Uplo M) x).length ≤ i := by
      simp [denseProduct]; omega
    rw [List.getElem?_eq_none h2, List.getElem?_eq_none h3]

omit [CommSemiring R] in
/-- Matrices that agree on the designated triangle have the same reconstruction. -/
theorem reconstructed_congr (Uplo : UpLo) (n : Nat) (M1 M2 : Nat → Nat → R)
    (h : AgreeOn Uplo n M1 M2) (i j : Nat) (hi : i < n) (hj : j < n) :
    reconstructed Uplo M1 i j = reconstructed Uplo M2 i j := by
  cases Uplo
  · by_cases hij : i ≥ j
    · simpa [reconstructed, hij] using h i hi j hj hij
    · simpa [reconstructed, hij] using h j hj i hi (by simp [inTriangle]; omega)
  · by_cases hij : i ≤ j
    · simpa [reconstructed, hij] using h i hi j hj hij
    · simpa [reconstructed, hij] using h j hj i hi (by simp [inTriangle]; omega)

/-- The dense product only depends on the leading `n`-by-`n` block. -/
theorem denseProduct_congr (n : Nat) (A B : Nat → Nat → R) (x : List R)
    (h : ∀ i < n, ∀ j < n, A i j = B i j) : denseProduct n A x = denseProduct n B x := by
  unfold denseProduct
  apply List.map_congr_left
  intro i hi
  apply Finset.sum_congr rfl
  intro j hj
  rw [h i (List.mem_range.mp hi) j (Finset.mem_range.mp hj)]

/-- Element `j` of a linear combination of two vectors. -/
theorem linComb_getD (a b : R) (x1 x2 : List R) (j : Nat) (h1 : j < x1.length)
    (h2 : j < x2.length) :
    (linComb a b x1 x2).getD j 0 = a * x1.getD j 0 + b * x2.getD j 0 := by
  simp [linComb, List.getD, List.getElem?_zipWith, List.getElem?_eq_getElem h1,
    List.getElem?_eq_getElem h2]

omit [CommSemiring R] in
/-- Element `i` of a linear combination of two lists, from their elements. -/
theorem linComb_getElem? [Add R] [Mul R] (a b u v : R) (l1 l2 : List R) (i : Nat)
    (h1 : l1[i]? = some u) (h2 : l2[i]? = some v) :
    (linComb a b l1 l2)[i]? = some (a * u + b * v) := by
  simp [linComb, List.getElem?_zipWith, h1, h2]

/-- Element `i` of the dense product. -/
theorem denseProduct_getElem? (n : Nat) (A : Nat → Nat → R) (x : List R) (i : Nat)
    (hi : i < n) :
    (denseProduct n A x)[i]? = some (∑ j ∈ Finset.range n, A i j * x.getD j 0) := by
  simp [denseProduct, List.getElem?_map, List.getElem?_range hi]

/-- The dense product is linear in the vector. -/
theorem denseProduct_linComb (n : Nat) (A : Nat → Nat → R) (a b : R) (x1 x2 : List R)
    (h1 : n ≤ x1.length) (h2 : n ≤ x2.length) :
    denseProduct n A (linComb a b x1 x2)
      = linComb a b (denseProduct n A x1) (denseProduct n A x2) := by
  apply List.ext_getElem?
  intro i
  by_cases hi : i < n
  · have e : ∑ j ∈ Finset.range n, A i j * (linComb a b x1 x2).getD j 0
        = a * ∑ j ∈ Finset.range n, A i j * x1.getD j 0
          + b * ∑ j ∈ Finset.range n, A i j * x2.getD j 0 := by
      rw [Finset.mul_sum, Finset.mul_sum, ← Finset.sum_add_distrib]
      apply Finset.sum_congr rfl
      intro j hj
      have hj2 : j < n := Finset.mem_range.mp hj
      rw [linComb_getD a b x1 x2 j (by omega) (by omega)]
      ring
    rw [denseProduct_getElem? n A _ i hi, e]
    exact (linComb_getElem? a b _ _ _ _ i (denseProduct_getElem? n A x1 i hi)
      (denseProduct_getElem? n A x2 i hi)).symm
  · have h3 : (denseProduct n A (linComb a b x1 x2)).length ≤ i := by
      simp [denseProduct]; omega
    have h4 : (linComb a b (denseProduct n A x1) (denseProduct n A x2)).length ≤ i := by
      simp [denseProduct, linComb]; omega
    rw [List.getElem?_eq_none h3, List.getElem?_eq_none h4]

/-- The contiguous reading of a buffer of at least `n * n` elements. -/
theorem stores_of_length (n : Nat) (d : List R) (hd : n * n ≤ d.length) :
    Stores d n n (fun i j => d.getD (i + j * n) 0) := by
  intro i hi j hj
  have h1 : j * n + n ≤ n * n := by
    calc j * n + n = (j + 1) * n := by ring
      _ ≤ n * n := Nat.mul_le_mul_right n hj
  have h2 : i + j * n < d.length := by omega
  simp [List.getD, List.getElem?_eq_getElem h2]

omit [CommSemiring R] in
/-- A successful call leaves the operator and the input buffer as they were. -/
theorem State.call_frame [Zero R] [Add R] [Mul R] (s s1 : State R) (h : s.call = some s1) :
    s1.op = s.op ∧ s1.x_in = s.x_in := by
  unfold State.call at h
  split at h
  · cases h
    exact ⟨rfl, rfl⟩
  · cases h

/-- Any number of calls with well-sized buffers succeeds and leaves the operator
as it was. -/
theorem State.calls_square (Uplo : UpLo) (n : Nat) (d : List R) (hd : n * n ≤ d.length)
    (xs : List (List R)) (hxs : ∀ x ∈ xs, x.length = n) (x0 y : List R) (hy : y.length = n) :
    ∃ s1, State.calls { op := squareOp Uplo d n, x_in := x0, y_out := y } xs = some s1
      ∧ s1.op = squareOp Uplo d n := by
  induction xs generalizing x0 y with
  | nil => exact ⟨_, rfl, rfl⟩
  | cons x xs ih =>
    have hx : x.length = n := hxs x (List.mem_cons_self x xs)
    have h1 := perform_op_square_eq Uplo n d x y _ (stores_of_length n d hd)
      (le_of_eq hx.symm) hy
    obtain ⟨s1, hs1, hop⟩ := ih (fun x' hx' => hxs x' (List.mem_cons_of_mem x hx')) x
      (denseProduct n (reconstructed Uplo fun i j => d.getD (i + j * n) 0) x)
      (by simp [denseProduct])
    refine ⟨s1, ?_, hop⟩
    simp only [State.calls, State.call, h1]
    exact hs1

omit [CommSemiring R] in
/-- Any successful sequence of calls leaves the operator as it was. -/
theorem State.calls_frame [Zero R] [Add R] [Mul R] (xs : List (List R)) (s s1 : State R)
    (h : s.calls xs = some s1) : s1.op = s.op := by
  induction xs generalizing s with
  | nil =>
    simp only [State.calls, Option.some.injEq] at h
    rw [← h]
  | cons x xs ih =>
    simp only [State.calls] at h
    split at h
    · next s2 h2 =>
      rw [ih s2 h, (State.call_frame _ s2 h2).1]
    · cases h

omit [CommSemiring R] in
/-- What a successful run of the assignment loop has done: every row product was
computed and stored in its element of the output buffer, the buffer kept its
length and the elements from index `k` on kept their values. -/
theorem assignProduct_some [Zero R] [Add R] [Mul R] (Uplo : UpLo) (m : MapMat R)
    (x : MapVec R) (k : Nat) (y y1 : MapVec R) (h : assignProduct Uplo m x k y = some y1) :
    k ≤ y.size ∧ k ≤ y.data.length ∧ y1.size = y.size ∧ y1.data.length = y.data.length
      ∧ (∀ i < k, ∃ v, rowDot Uplo m x i m.cols = some v ∧ y1.data[i]? = some v)
      ∧ (∀ i, k ≤ i → y1.data[i]? = y.data[i]?) := by
  induction k generalizing y1 with
  | zero =>
    simp only [assignProduct, Option.some.injEq] at h
    subst h
    exact ⟨Nat.zero_le _, Nat.zero_le _, rfl, rfl,
      fun i hi => absurd hi (Nat.not_lt_zero i), fun _ _ => rfl⟩
  | succ k ih =>
    simp only [assignProduct, Option.bind_eq_bind, Option.bind_eq_some] at h
    obtain ⟨y0, h0, v, hv, hset⟩ := h
    obtain ⟨_, _, hs, hl, hlo, hhi⟩ := ih y0 h0
    unfold MapVec.assignCoeff at hset
    split at hset
    · next hk =>
      simp only [Option.some.injEq] at hset
      subst hset
      refine ⟨by omega, by omega, hs, by simpa using hl, ?_, ?_⟩
      · intro i hi
        by_cases hik : i = k
        · subst hik
          exact ⟨v, hv, by simp [List.getElem?_set, hk.2]⟩
        · obtain ⟨w, hw, hw2⟩ := hlo i (by omega)
          exact ⟨w, hw, by simp [List.getElem?_set, Ne.symm hik, hw2]⟩
      · intro i hi
        have hne : k ≠ i := by omega
        simp [List.getElem?_set, hne, hhi i (by omega)]
    · cases hset

omit [CommSemiring R] in
/-- The result of the assignment loop is determined by the row products and by the
elements of the output buffer from index `k` on. -/
theorem assignProduct_eq_of [Zero R] [Add R] [Mul R] (Uplo : UpLo) (m : MapMat R)
    (x : MapVec R) (k : Nat) (y z : MapVec R)
    (hk : k ≤ y.size) (hlen : k ≤ y.data.length)
    (hz : z.size = y.size)
    (hlo : ∀ i < k, ∃ v, rowDot Uplo m x i m.cols = some v ∧ z.data[i]? = some v)
    (hhi : ∀ i, k ≤ i → z.data[i]? = y.data[i]?) :
    assignProduct Uplo m x k y = some z := by
  induction k generalizing z with
  | zero =>
    have e : z = y := by
      cases z
      cases y
      simp only [MapVec.mk.injEq]
      exact ⟨List.ext_getElem? fun i => hhi i (Nat.zero_le i), hz⟩
    rw [e]
    rfl
  | succ k ih =>
    obtain ⟨v, hv, hzv⟩ := hlo k (Nat.lt_succ_self k)
    have hkl : k < y.data.length := by omega
    have hzl : k < z.data.length := by
      by_contra hcon
      rw [List.getElem?_eq_none (by omega)] at hzv
      cases hzv
    have h0 := ih { data := z.data.set k (y.data[k]), size := y.size } (by omega) (by omega) rfl
      (fun i hi => by
        obtain ⟨w, hw, hw2⟩ := hlo i (by omega)
        have hne : k ≠ i := by omega
        exact ⟨w, hw, by simp [List.getElem?_set, hne, hw2]⟩)
      (fun i hi => by
        by_cases hik : k = i
        · subst hik
          simp [List.getElem?_set, hzl, List.getElem?_eq_getElem hkl]
        · simp [List.getElem?_set, hik, hhi i (by omega)])
    have e : z = { data := (z.data.set k (y.data[k])).set k v, size := y.size } := by
      cases z
      simp only [MapVec.mk.injEq]
      refine ⟨?_, hz⟩
      apply List.ext_getElem?
      intro i
      by_cases hik : k = i
      · subst hik
        simp only [List.set_set]
        simp only at hzv hzl
        simp [List.getElem?_set, hzl, hzv]
      · simp [List.getElem?_set, hik]
    have hkl2 : k < (z.data.set k (y.data[k])).length := by simpa using hzl
    simp only [assignProduct, Option.bind_eq_bind, h0, Option.some_bind, hv,
      MapVec.assignCoeff]
    rw [if_pos ⟨by omega, hkl2⟩]
    exact congrArg some e.symm

omit [CommSemiring R] in
/-- The result of `perform_op` does not depend on the prior content of an output
buffer of exactly `m_mat.rows()` elements. -/
theorem perform_op_indep [Zero R] [Add R] [Mul R] (op : DenseSymMatProd R)
    (x y0 y0' y1 : List R) (h0 : y0.length = op.m_mat.rows) (h0' : y0'.length = op.m_mat.rows)
    (h : op.perform_op x y0 = some y1) : op.perform_op x y0' = some y1 := by
  simp only [DenseSymMatProd.perform_op, Option.map_eq_some'] at h ⊢
  obtain ⟨z, hz, hzd⟩ := h
  obtain ⟨hk, hlen, hs, hl, hlo, _⟩ := assignProduct_some _ _ _ _ _ z hz
  refine ⟨z, ?_, hzd⟩
  simp only at hk hlen hs hl
  apply assignProduct_eq_of op.Uplo op.m_mat _ op.m_mat.rows
    { data := y0', size := op.m_mat.rows } z (le_refl _) (le_of_eq h0'.symm) hs hlo
  intro i hi
  rw [List.getElem?_eq_none (by omega), List.getElem?_eq_none (by simp only; omega)]

omit [CommSemiring R] in
/-- Calling `perform_op` again on the buffer it has just written gives the same
buffer. -/
theorem perform_op_idem [Zero R] [Add R] [Mul R] (op : DenseSymMatProd R)
    (x y y1 : List R) (h : op.perform_op x y = some y1) : op.perform_op x y1 = some y1 := by
  simp only [DenseSymMatProd.perform_op, Option.map_eq_some'] at h ⊢
  obtain ⟨z, hz, hzd⟩ := h
  obtain ⟨hk, hlen, hs, hl, hlo, _⟩ := assignProduct_some _ _ _ _ _ z hz
  subst hzd
  refine ⟨z, ?_, rfl⟩
  simp only at hk hlen hs hl
  exact assignProduct_eq_of op.Uplo op.m_mat _ op.m_mat.rows
    { data := z.data, size := op.m_mat.rows } z (le_refl _) (by simp only; omega) hs hlo
    (fun _ _ => rfl)

omit [CommSemiring R] in
/-- The reconstructed matrix is symmetric. -/
theorem reconstructed_symm (Uplo : UpLo) (M : Nat → Nat → R) (i j : Nat) :
    reconstructed Uplo M i j = reconstructed Uplo M j i := by
  rcases Nat.lt_trichotomy i j with h | h | h
  · cases Uplo <;> simp [reconstructed, h, Nat.le_of_lt h, Nat.not_le_of_lt h]
  · subst h
    rfl
  · cases Uplo <;> simp [reconstructed, h, Nat.le_of_lt h, Nat.not_le_of_lt h]

omit [CommSemiring R] in
/-- Reconstructing from the lower triangle of `M` or from the upper triangle of
its transpose gives the same matrix. -/
theorem reconstructed_transpose (M : Nat → Nat → R) (i j : Nat) :
    reconstructed UpLo.Lower M i j = reconstructed UpLo.Upper (fun a b => M b a) i j := by
  rcases Nat.lt_trichotomy i j with h | h | h
  · simp [reconstructed, h, Nat.le_of_lt h, Nat.not_le_of_lt h]
  · subst h
    simp [reconstructed]
  · simp [reconstructed, h, Nat.le_of_lt h, Nat.not_le_of_lt h]

omit [CommSemiring R] in
/-- An operator with `n` rows and `n` columns is the operator over the contiguous
`n`-by-`n` view of its buffer. -/
theorem eq_squareOp (op : DenseSymMatProd R) (n : Nat) (hr : op.m_mat.rows = n)
    (hc : op.m_mat.cols = n) : op = squareOp op.Uplo op.m_mat.data n := by
  obtain ⟨u, ⟨d, r, c⟩⟩ := op
  simp only at hr hc
  subst hr
  subst hc
  rfl

/-- The dense product has `n` elements. -/
theorem denseProduct_length (n : Nat) (A : Nat → Nat → R) (x : List R) :
    (denseProduct n A x).length = n := by
  simp [denseProduct]

/-- Element `i` of the dense product, read with a default. -/
theorem denseProduct_getD (n : Nat) (A : Nat → Nat → R) (x : List R) (i : Nat) (hi : i < n) :
    (denseProduct n A x).getD i 0 = ∑ j ∈ Finset.range n, A i j * x.getD j 0 := by
  simp [List.getD, denseProduct_getElem? n A x i hi]

/-- The dense product with a symmetric matrix is self-adjoint for the dot
product. -/
theorem dot_denseProduct_symm (n : Nat) (A : Nat → Nat → R) (hA : ∀ i j, A i j = A j i)
    (u v : List R) (hu : u.length = n) (hv : v.length = n) :
    dot v (denseProduct n A u) = dot u (denseProduct n A v) := by
  unfold dot
  rw [denseProduct_length, denseProduct_length, hu, hv, Nat.min_self]
  have e1 : ∑ i ∈ Finset.range n, v.getD i 0 * (denseProduct n A u).getD i 0
      = ∑ i ∈ Finset.range n, ∑ j ∈ Finset.range n, v.getD i 0 * (A i j * u.getD j 0) := by
    apply Finset.sum_congr rfl
    intro i hi
    rw [denseProduct_getD n A u i (Finset.mem_range.mp hi), Finset.mul_sum]
  have e2 : ∑ j ∈ Finset.range n, u.getD j 0 * (denseProduct n A v).getD j 0
      = ∑ j ∈ Finset.range n, ∑ i ∈ Finset.range n, v.getD i 0 * (A i j * u.getD j 0) := by
    apply Finset.sum_congr rfl
    intro j hj
    rw [denseProduct_getD n A v j (Finset.mem_range.mp hj), Finset.mul_sum]
    apply Finset.sum_congr rfl
    intro i _
    rw [hA j i]
    ring
  rw [e1, e2, Finset.sum_comm]

omit [CommSemiring R] in
/-- The frame of one call: everything but the output buffer is kept, and the
output buffer is changed in its first `m_mat.rows()` elements only. -/
theorem call_changes_only_y_aux [Zero R] [Add R] [Mul R] (s : State R) :
    ∀ s1, s.call = some s1 →
      s1.op = s.op ∧ s1.op.m_mat.data = s.op.m_mat.data ∧ s1.op.rows = s.op.rows
        ∧ s1.op.cols = s.op.cols ∧ s1.x_in = s.x_in
        ∧ s1.y_out.length = s.y_out.length
        ∧ (∀ i < s.op.m_mat.rows, ∃ v,
            rowDot s.op.Uplo s.op.m_mat { data := s.x_in, size := s.op.m_mat.cols } i s.op.m_mat.cols
              = some v ∧ s1.y_out[i]? = some v)
        ∧ (∀ i, s.op.m_mat.rows ≤ i → s1.y_out[i]? = s.y_out[i]?) := by
  intro s1 h
  unfold State.call at h
  split at h
  · next y1 hy1 =>
    simp only [Option.some.injEq] at h
    subst h
    simp only [DenseSymMatProd.perform_op, Option.map_eq_some'] at hy1
    obtain ⟨z, hz, hzd⟩ := hy1
    obtain ⟨_, _, _, hl, hlo, hhi⟩ := assignProduct_some _ _ _ _ _ z hz
    subst hzd
    exact ⟨rfl, rfl, rfl, rfl, rfl, hl, hlo, hhi⟩
  · cases h

/-- Row `i` of the product with the matrix reconstructed from the lower triangle,
split into the stored part of the row and the mirrored part of the column. -/
theorem sum_reconstructed_lower (n : Nat) (M : Nat → Nat → R) (xv : Nat → R) (i : Nat)
    (hi : i < n) :
    ∑ j ∈ Finset.range n, reconstructed UpLo.Lower M i j * xv j
      = ∑ j ∈ Finset.range (i + 1), M i j * xv j + ∑ j ∈ Finset.Ico (i + 1) n, M j i * xv j := by
  rw [← Finset.sum_range_add_sum_Ico _ (Nat.succ_le_of_lt hi)]
  congr 1
  · apply Finset.sum_congr rfl
    intro j hj
    have h : j ≤ i := Nat.lt_succ_iff.mp (Finset.mem_range.mp hj)
    simp [reconstructed, h]
  · apply Finset.sum_congr rfl
    intro j hj
    have h : ¬ j ≤ i := by
      have := (Finset.mem_Ico.mp hj).1
      omega
    simp [reconstructed, h]

/-- Row `i` of the product with the matrix reconstructed from the upper triangle,
split into the stored part of the row and the mirrored part of the column. -/
theorem sum_reconstructed_upper (n : Nat) (M : Nat → Nat → R) (xv : Nat → R) (i : Nat)
    (hi : i < n) :
    ∑ j ∈ Finset.range n, reconstructed UpLo.Upper M i j * xv j
      = ∑ j ∈ Finset.Ico i n, M i j * xv j + ∑ j ∈ Finset.range i, M j i * xv j := by
  rw [← Finset.sum_range_add_sum_Ico _ (Nat.le_of_lt hi), add_comm]
  congr 1
  · apply Finset.sum_congr rfl
    intro j hj
    have h : i ≤ j := (Finset.mem_Ico.mp hj).1
    simp [reconstructed, h]
  · apply Finset.sum_congr rfl
    intro j hj
    have h : ¬ i ≤ j := by
      have := Finset.mem_range.mp hj
      omega
    simp [reconstructed, h]

end Helpers

/-! ## Claims -/

section Claims

variable {R : Type} [CommSemiring R]

/-- C1: for every `n`, every stored `n`-by-`n` matrix `M` (symmetric or not), every
vector `x` of length `n` and both triangle designations, `perform_op` returns and
leaves `y[i] = ∑ j < n, A i j * x[j]` for every `i < n`, where `A` is the matrix
reconstructed from the designated triangle of `M`. -/
theorem perform_op_reconstructed_product (Uplo : UpLo) (n : Nat) (d x y : List R)
    (M : Nat → Nat → R) (hM : Stores d n n M) (hx : x.length = n) (hy : y.length = n) :
    ∃ y1, (squareOp Uplo d n).perform_op x y = some y1 ∧ y1.length = n
      ∧ ∀ i < n, y1[i]? = some (∑ j ∈ Finset.range n, reconstructed Uplo M i j * x.getD j 0) := by
  obtain ⟨y1, h1, hl, hlo, _⟩ := perform_op_square Uplo n d x y M hM (le_of_eq hx.symm)
    (le_of_eq hy.symm)
  exact ⟨y1, h1, hl.trans hy, hlo⟩

/-- Witness of C1 on a non-symmetric 2-by-2 matrix over the integers. -/
theorem perform_op_reconstructed_product_witness :
    Stores exampleBuf 2 2 exampleM
      ∧ ∃ y1, (squareOp UpLo.Upper exampleBuf 2).perform_op exampleX exampleY = some y1
        ∧ y1.length = 2
        ∧ ∀ i < 2, y1[i]? = some (∑ j ∈ Finset.range 2,
            reconstructed UpLo.Upper exampleM i j * exampleX.getD j 0) :=
  ⟨by decide, perform_op_reconstructed_product UpLo.Upper 2 exampleBuf exampleX exampleY
    exampleM (by decide) rfl rfl⟩

/-- C2: for every stored `n`-by-`n` matrix `M` that is symmetric and every vector
`x` of length `n`, `perform_op` with either triangle designation returns the
ordinary dense product `M * x` computed from all `n * n` entries of `M`. -/
theorem perform_op_symmetric_eq_dense (Uplo : UpLo) (n : Nat) (d x y : List R)
    (M : Nat → Nat → R) (hM : Stores d n n M) (hsym : IsSymm n M)
    (hx : x.length = n) (hy : y.length = n) :
    (squareOp Uplo d n).perform_op x y = some (denseProduct n M x) := by
  rw [perform_op_square_eq Uplo n d x y M hM (le_of_eq hx.symm) hy]
  congr 1
  apply denseProduct_congr
  intro i hi j hj
  cases Uplo
  · by_cases hij : i ≥ j
    · simp [reconstructed, hij]
    · simpa [reconstructed, hij] using hsym j hj i hi
  · by_cases hij : i ≤ j
    · simp [reconstructed, hij]
    · simpa [reconstructed, hij] using hsym j hj i hi

/-- Witness of C2 on the symmetric matrix with rows `[2, 1]` and `[1, 3]`. -/
theorem perform_op_symmetric_eq_dense_witness :
    Stores [2, 1, 1, 3] 2 2 exampleS ∧ IsSymm 2 exampleS
      ∧ (squareOp UpLo.Lower [2, 1, 1, 3] 2).perform_op exampleX exampleY
        = some (denseProduct 2 exampleS exampleX) :=
  ⟨by decide, by decide, perform_op_symmetric_eq_dense UpLo.Lower 2 [2, 1, 1, 3] exampleX
    exampleY exampleS (by decide) (by decide) rfl rfl⟩

/-- C3: the unselected triangle is never read.  For two stored `n`-by-`n` matrices
that agree on the designated triangle (diagonal included) and any vector `x` of
length `n`, the two operators return the same output vector from `perform_op`,
whatever the other triangle holds. -/
theorem perform_op_ignores_other_triangle (Uplo : UpLo) (n : Nat) (d1 d2 x y : List R)
    (M1 M2 : Nat → Nat → R) (h1 : Stores d1 n n M1) (h2 : Stores d2 n n M2)
    (hagree : AgreeOn Uplo n M1 M2) (hx : x.length = n) (hy : y.length = n) :
    ∃ y1, (squareOp Uplo d1 n).perform_op x y = some y1
      ∧ (squareOp Uplo d2 n).perform_op x y = some y1 := by
  refine ⟨denseProduct n (reconstructed Uplo M1) x,
    perform_op_square_eq Uplo n d1 x y M1 h1 (le_of_eq hx.symm) hy, ?_⟩
  rw [perform_op_square_eq Uplo n d2 x y M2 h2 (le_of_eq hx.symm) hy]
  congr 1
  exact (denseProduct_congr n _ _ x
    (fun i hi j hj => reconstructed_congr Uplo n M1 M2 hagree i j hi hj)).symm

/-- Witness of C3: two buffers that differ only in the strict upper triangle. -/
theorem perform_op_ignores_other_triangle_witness :
    Stores exampleBuf 2 2 exampleM ∧ Stores [1, 2, 99, 4] 2 2 examplePoisoned
      ∧ AgreeOn UpLo.Lower 2 exampleM examplePoisoned
      ∧ ∃ y1, (squareOp UpLo.Lower exampleBuf 2).perform_op exampleX exampleY = some y1
        ∧ (squareOp UpLo.Lower [1, 2, 99, 4] 2).perform_op exampleX exampleY = some y1 :=
  ⟨by decide, by decide, by decide,
    perform_op_ignores_other_triangle UpLo.Lower 2 exampleBuf [1, 2, 99, 4] exampleX exampleY
      exampleM examplePoisoned (by decide) (by decide) (by decide) rfl rfl⟩

/-- C4: for a symmetric matrix `A`, a stored matrix `ML` that agrees with `A` on the
lower triangle and diagonal and a stored matrix `MU` that agrees with `A` on the
upper triangle and diagonal (the other triangles holding arbitrary values), the
`Lower` operator over `ML` and the `Upper` operator over `MU` return identical
output vectors, whatever the two output buffers held before: both return the
dense product `A * x`. -/
theorem perform_op_lower_eq_upper_poisoned (n : Nat) (dL dU x y y' : List R)
    (ML MU A : Nat → Nat → R) (hL : Stores dL n n ML) (hU : Stores dU n n MU)
    (hA : IsSymm n A) (hLA : AgreeOn UpLo.Lower n ML A) (hUA : AgreeOn UpLo.Upper n MU A)
    (hx : x.length = n) (hy : y.length = n) (hy' : y'.length = n) :
    (squareOp UpLo.Lower dL n).perform_op x y = some (denseProduct n A x)
      ∧ (squareOp UpLo.Upper dU n).perform_op x y' = some (denseProduct n A x) := by
  refine ⟨?_, ?_⟩
  · rw [perform_op_square_eq UpLo.Lower n dL x y ML hL (le_of_eq hx.symm) hy]
    congr 1
    apply denseProduct_congr
    intro i hi j hj
    rw [reconstructed_congr UpLo.Lower n ML A hLA i j hi hj]
    by_cases hij : i ≥ j
    · simp [reconstructed, hij]
    · simpa [reconstructed, hij] using hA j hj i hi
  · rw [perform_op_square_eq UpLo.Upper n dU x y' MU hU (le_of_eq hx.symm) hy']
    congr 1
    apply denseProduct_congr
    intro i hi j hj
    rw [reconstructed_congr UpLo.Upper n MU A hUA i j hi hj]
    by_cases hij : i ≤ j
    · simp [reconstructed, hij]
    · simpa [reconstructed, hij] using hA j hj i hi

/-- Witness of C4: the symmetric matrix with rows `[2, 1]`, `[1, 3]`, stored once
with a poisoned upper triangle and once with a poisoned lower triangle, and two
output buffers with different prior contents. -/
theorem perform_op_lower_eq_upper_poisoned_witness :
    Stores [2, 1, 77, 3] 2 2 exampleLowerOnly ∧ Stores [2, 88, 1, 3] 2 2 exampleUpperOnly
      ∧ IsSymm 2 exampleS ∧ AgreeOn UpLo.Lower 2 exampleLowerOnly exampleS
      ∧ AgreeOn UpLo.Upper 2 exampleUpperOnly exampleS
      ∧ (squareOp UpLo.Lower [2, 1, 77, 3] 2).perform_op exampleX exampleY
          = some (denseProduct 2 exampleS exampleX)
      ∧ (squareOp UpLo.Upper [2, 88, 1, 3] 2).perform_op exampleX exampleY2
          = some (denseProduct 2 exampleS exampleX) :=
  ⟨by decide, by decide, by decide, by decide, by decide,
    perform_op_lower_eq_upper_poisoned 2 [2, 1, 77, 3] [2, 88, 1, 3] exampleX exampleY
      exampleY2 exampleLowerOnly exampleUpperOnly exampleS (by decide) (by decide) (by decide)
      (by decide) (by decide) rfl rfl rfl⟩

/-- C5: linearity.  For every operator over a stored `n`-by-`n` matrix (any
contents, either triangle designation), all scalars `a`, `b` and all vectors `x1`,
`x2` of length `n`, the output of `perform_op` on `a * x1 + b * x2` is `a` times the
output on `x1` plus `b` times the output on `x2`, component by component. -/
theorem perform_op_linear (Uplo : UpLo) (n : Nat) (d : List R) (M : Nat → Nat → R)
    (a b : R) (x1 x2 y1 y2 y3 : List R) (hM : Stores d n n M)
    (hx1 : x1.length = n) (hx2 : x2.length = n)
    (hy1 : y1.length = n) (hy2 : y2.length = n) (hy3 : y3.length = n) :
    ∃ o1 o2 o3, (squareOp Uplo d n).perform_op x1 y1 = some o1
      ∧ (squareOp Uplo d n).perform_op x2 y2 = some o2
      ∧ (squareOp Uplo d n).perform_op (linComb a b x1 x2) y3 = some o3
      ∧ o3 = linComb a b o1 o2 := by
  have hlen : n ≤ (linComb a b x1 x2).length := by simp [linComb, hx1, hx2]
  exact ⟨_, _, _, perform_op_square_eq Uplo n d x1 y1 M hM (le_of_eq hx1.symm) hy1,
    perform_op_square_eq Uplo n d x2 y2 M hM (le_of_eq hx2.symm) hy2,
    perform_op_square_eq Uplo n d _ y3 M hM hlen hy3,
    denseProduct_linComb n _ a b x1 x2 (le_of_eq hx1.symm) (le_of_eq hx2.symm)⟩

/-- Witness of C5 on the non-symmetric buffer `[1, 2, 3, 4]`. -/
theorem perform_op_linear_witness :
    Stores exampleBuf 2 2 exampleM
      ∧ ∃ o1 o2 o3, (squareOp UpLo.Lower exampleBuf 2).perform_op exampleX exampleY = some o1
        ∧ (squareOp UpLo.Lower exampleBuf 2).perform_op exampleX2 exampleY = some o2
        ∧ (squareOp UpLo.Lower exampleBuf 2).perform_op (linComb 2 3 exampleX exampleX2) exampleY
            = some o3
        ∧ o3 = linComb 2 3 o1 o2 :=
  ⟨by decide, perform_op_linear UpLo.Lower 2 exampleBuf exampleM 2 3 exampleX exampleX2 exampleY
    exampleY exampleY (by decide) rfl rfl rfl rfl rfl⟩

/-- C6 (as the code behaves): the constructor performs no shape check.  For every
view, square or not, whose row and column counts are within the range of `int`,
it returns an operator whose `rows()` is the row count of the view and whose
`cols()` is its column count, so `rows() = cols()` holds exactly when the view is
square. -/
theorem ctor_rows_cols {S : Type} (Uplo : UpLo) (mat_ : ConstGenericMatrix S)
    (hr : mat_.rows < 2 ^ 31) (hc : mat_.cols < 2 ^ 31) :
    (DenseSymMatProd.ctor Uplo mat_).rows = (mat_.rows : Int)
      ∧ (DenseSymMatProd.ctor Uplo mat_).cols = (mat_.cols : Int)
      ∧ ((DenseSymMatProd.ctor Uplo mat_).rows = (DenseSymMatProd.ctor Uplo mat_).cols
          ↔ mat_.rows = mat_.cols) := by
  have e1 : (DenseSymMatProd.ctor Uplo mat_).rows = (mat_.rows : Int) :=
    narrowToInt_of_lt mat_.rows hr
  have e2 : (DenseSymMatProd.ctor Uplo mat_).cols = (mat_.cols : Int) :=
    narrowToInt_of_lt mat_.cols hc
  refine ⟨e1, e2, ?_⟩
  rw [e1, e2]
  exact Int.ofNat_inj

/-- Witness of C6 (as the code behaves) on the 2-by-3 view. -/
theorem ctor_rows_cols_witness :
    exampleRect.rows < 2 ^ 31 ∧ exampleRect.cols < 2 ^ 31
      ∧ (DenseSymMatProd.ctor UpLo.Upper exampleRect).rows = (exampleRect.rows : Int)
      ∧ (DenseSymMatProd.ctor UpLo.Upper exampleRect).cols = (exampleRect.cols : Int)
      ∧ ((DenseSymMatProd.ctor UpLo.Upper exampleRect).rows
            = (DenseSymMatProd.ctor UpLo.Upper exampleRect).cols
          ↔ exampleRect.rows = exampleRect.cols) :=
  ⟨by decide, by decide, ctor_rows_cols UpLo.Upper exampleRect (by decide) (by decide)⟩

/-- C6 (counterexample): the constructor returns an operator for a 2-by-3 view,
and that operator has `rows() = 2` and `cols() = 3`. -/
theorem ctor_accepts_non_square :
    (DenseSymMatProd.ctor UpLo.Lower exampleRect).rows = 2
      ∧ (DenseSymMatProd.ctor UpLo.Lower exampleRect).cols = 3
      ∧ (DenseSymMatProd.ctor UpLo.Lower exampleRect).rows
          ≠ (DenseSymMatProd.ctor UpLo.Lower exampleRect).cols := by
  decide

/-- C7 (the code at a strided view): for the 2-by-2 view with outer stride 3 over
the buffer `[1, ..., 9]`, whose entries are `1, 4` and `2, 5`, the claim gives
`y = [2, 5]` for `x = [0, 1]` with `Lower`, but the constructed operator returns
`y = [2, 4]`: it reads column 1 at offset `rows` instead of `outerStride`. -/
theorem ctor_drops_outer_stride :
    Stores exampleStrided.data 2 exampleStrided.outerStride exampleStridedM
      ∧ (∀ i < 2, ∀ j < 2, exampleStrided.coeff i j = some (exampleStridedM i j))
      ∧ denseProduct 2 (reconstructed UpLo.Lower exampleStridedM) [0, 1] = [2, 5]
      ∧ (DenseSymMatProd.ctor UpLo.Lower exampleStrided).perform_op [0, 1] [0, 0]
          = some [2, 4] := by
  refine ⟨by decide, by decide, ?_, by decide⟩
  simp [denseProduct, List.range, List.range.loop, Finset.sum_range_succ, reconstructed,
    exampleStridedM]

/-- C8: for every `n` in the range of `int` and every operator constructed from
an `n`-by-`n` view, `rows()` and `cols()` return `n`; after any sequence of
`perform_op` calls they still return `n`, and with a buffer of at least `n * n`
elements and vectors of length `n` every such sequence of calls returns. -/
theorem rows_cols_stable (Uplo : UpLo) (mat_ : ConstGenericMatrix R) (n : Nat)
    (hr : mat_.rows = n) (hc : mat_.cols = n) (hn : n < 2 ^ 31) (xs : List (List R))
    (x0 y : List R) :
    (DenseSymMatProd.ctor Uplo mat_).rows = (n : Int)
      ∧ (DenseSymMatProd.ctor Uplo mat_).cols = (n : Int)
      ∧ (∀ s1, State.calls { op := DenseSymMatProd.ctor Uplo mat_, x_in := x0, y_out := y } xs
            = some s1 → s1.op.rows = (n : Int) ∧ s1.op.cols = (n : Int))
      ∧ (n * n ≤ mat_.data.length → y.length = n → (∀ x ∈ xs, x.length = n) →
          ∃ s1, State.calls { op := DenseSymMatProd.ctor Uplo mat_, x_in := x0, y_out := y } xs
            = some s1) := by
  have e1 : (DenseSymMatProd.ctor Uplo mat_).rows = (n : Int) := by
    rw [← hr]
    exact narrowToInt_of_lt mat_.rows (hr ▸ hn)
  have e2 : (DenseSymMatProd.ctor Uplo mat_).cols = (n : Int) := by
    rw [← hc]
    exact narrowToInt_of_lt mat_.cols (hc ▸ hn)
  refine ⟨e1, e2, ?_, ?_⟩
  · intro s1 h
    rw [State.calls_frame xs _ s1 h]
    exact ⟨e1, e2⟩
  · intro hd hy hxs
    have e : DenseSymMatProd.ctor Uplo mat_ = squareOp Uplo mat_.data n := by
      simp [squareOp, DenseSymMatProd.ctor, hr, hc]
    rw [e]
    obtain ⟨s1, h1, _⟩ := State.calls_square Uplo n mat_.data hd xs hxs x0 y hy
    exact ⟨s1, h1⟩

/-- Witness of C8 on the strided 2-by-2 view and two calls. -/
theorem rows_cols_stable_witness :
    exampleStrided.rows = 2 ∧ exampleStrided.cols = 2 ∧ 2 < 2 ^ 31
      ∧ (DenseSymMatProd.ctor UpLo.Lower exampleStrided).rows = ((2 : Nat) : Int)
      ∧ (DenseSymMatProd.ctor UpLo.Lower exampleStrided).cols = ((2 : Nat) : Int)
      ∧ (∀ s1,
          State.calls
            { op := DenseSymMatProd.ctor UpLo.Lower exampleStrided, x_in := exampleX,
              y_out := exampleY } [exampleX, exampleX2] = some s1 →
          s1.op.rows = ((2 : Nat) : Int) ∧ s1.op.cols = ((2 : Nat) : Int))
      ∧ (2 * 2 ≤ exampleStrided.data.length → exampleY.length = 2 →
          (∀ x ∈ [exampleX, exampleX2], x.length = 2) →
          ∃ s1,
            State.calls
              { op := DenseSymMatProd.ctor UpLo.Lower exampleStrided, x_in := exampleX,
                y_out := exampleY } [exampleX, exampleX2] = some s1) :=
  ⟨rfl, rfl, by decide, rows_cols_stable UpLo.Lower exampleStrided 2 rfl rfl (by decide)
    [exampleX, exampleX2] exampleX exampleY⟩

/-- C11: the concrete scenario.  For the `Lower` operator over the 3-by-3 stored
matrix with diagonal `[2, 3, 4]`, entries `(1,0) = 1`, `(2,0) = 0`, `(2,1) = 1` and
any values in the strict upper triangle, `perform_op` on `x = [1, 0, 0]` returns
`y = [2, 1, 0]` and on `x = [1, 1, 1]` returns `y = [3, 5, 5]`. -/
theorem perform_op_scenario (u01 u02 u12 : R) (y : List R) (hy : y.length = 3) :
    (squareOp UpLo.Lower (scenarioBuf u01 u02 u12) 3).perform_op [1, 0, 0] y = some [2, 1, 0]
      ∧ (squareOp UpLo.Lower (scenarioBuf u01 u02 u12) 3).perform_op [1, 1, 1] y
          = some [3, 5, 5] := by
  have hS := stores_of_length 3 (scenarioBuf u01 u02 u12) (by simp [scenarioBuf])
  constructor
  · rw [perform_op_square_eq UpLo.Lower 3 _ [1, 0, 0] y _ hS (by simp) hy]
    simp [denseProduct, List.range, List.range.loop, Finset.sum_range_succ, reconstructed,
      scenarioBuf]
  · rw [perform_op_square_eq UpLo.Lower 3 _ [1, 1, 1] y _ hS (by simp) hy]
    simp only [denseProduct, List.range, List.range.loop, Finset.sum_range_succ,
      Finset.sum_range_zero, reconstructed, scenarioBuf, List.map]
    simp
    refine ⟨?_, ?_, ?_⟩ <;> norm_num

/-- Witness of C11 with poison values `50, 60, 70` in the strict upper triangle. -/
theorem perform_op_scenario_witness :
    exampleY3.length = 3
      ∧ (squareOp UpLo.Lower (scenarioBuf 50 60 70) 3).perform_op [1, 0, 0] exampleY3
          = some [2, 1, 0]
      ∧ (squareOp UpLo.Lower (scenarioBuf 50 60 70) 3).perform_op [1, 1, 1] exampleY3
          = some [3, 5, 5] :=
  ⟨rfl, perform_op_scenario 50 60 70 exampleY3 rfl⟩

/-- C12: `perform_op` is a non-accumulating write.  For every operator, every `x`
of length `m_mat.cols()` and every two initial contents `y0`, `y0'` of an output
buffer of length `m_mat.rows()` (the dimensions that `cols()` and `rows()` return),
the call gives the same result; on a square operator over a buffer of at least
`rows * rows` elements that result is a returned vector. -/
theorem perform_op_non_accumulating (op : DenseSymMatProd R) (x y0 y0' : List R)
    (hx : x.length = op.m_mat.cols) (h0 : y0.length = op.m_mat.rows)
    (h0' : y0'.length = op.m_mat.rows) :
    op.perform_op x y0 = op.perform_op x y0'
      ∧ (op.m_mat.rows = op.m_mat.cols →
          op.m_mat.rows * op.m_mat.rows ≤ op.m_mat.data.length →
          ∃ y1, op.perform_op x y0 = some y1 ∧ op.perform_op x y0' = some y1) := by
  have heq : op.perform_op x y0 = op.perform_op x y0' := by
    cases h : op.perform_op x y0 with
    | some y1 => exact (perform_op_indep op x y0 y0' y1 h0 h0' h).symm
    | none =>
      cases h' : op.perform_op x y0' with
      | some y1 =>
        rw [perform_op_indep op x y0' y0 y1 h0' h0 h'] at h
        cases h
      | none => rfl
  refine ⟨heq, ?_⟩
  intro hsq hd
  have e := eq_squareOp op op.m_mat.rows rfl hsq.symm
  have h1 := perform_op_square_eq op.Uplo op.m_mat.rows op.m_mat.data x y0 _
    (stores_of_length op.m_mat.rows op.m_mat.data hd) (by omega) h0
  rw [← e] at h1
  exact ⟨_, h1, heq ▸ h1⟩

/-- Witness of C12: two different prior contents of the output buffer. -/
theorem perform_op_non_accumulating_witness :
    exampleX.length = (squareOp UpLo.Lower exampleBuf 2).m_mat.cols
      ∧ exampleY.length = (squareOp UpLo.Lower exampleBuf 2).m_mat.rows
      ∧ exampleY2.length = (squareOp UpLo.Lower exampleBuf 2).m_mat.rows
      ∧ (squareOp UpLo.Lower exampleBuf 2).perform_op exampleX exampleY
          = (squareOp UpLo.Lower exampleBuf 2).perform_op exampleX exampleY2
      ∧ ((squareOp UpLo.Lower exampleBuf 2).m_mat.rows = (squareOp UpLo.Lower exampleBuf 2).m_mat.cols →
          (squareOp UpLo.Lower exampleBuf 2).m_mat.rows * (squareOp UpLo.Lower exampleBuf 2).m_mat.rows
            ≤ (squareOp UpLo.Lower exampleBuf 2).m_mat.data.length →
          ∃ y1, (squareOp UpLo.Lower exampleBuf 2).perform_op exampleX exampleY = some y1
            ∧ (squareOp UpLo.Lower exampleBuf 2).perform_op exampleX exampleY2 = some y1) :=
  ⟨rfl, rfl, rfl, perform_op_non_accumulating (squareOp UpLo.Lower exampleBuf 2) exampleX
    exampleY exampleY2 rfl rfl rfl⟩

/-- C13: over the explicit state, `perform_op` changes nothing but `y`.  After a
call the operator (matrix buffer, `rows()`, `cols()`) and the input buffer are as
before, the output buffer has kept its length, its first `m_mat.rows()` elements
(the dimension that `rows()` returns) hold the rows of the product and its
elements from that index on have kept their values; with a square operator over
a buffer of at least `rows * rows` elements and buffers that are long enough the
call returns. -/
theorem call_changes_only_y (s : State R) :
    (∀ s1, s.call = some s1 →
        s1.op = s.op ∧ s1.op.m_mat.data = s.op.m_mat.data ∧ s1.op.rows = s.op.rows
          ∧ s1.op.cols = s.op.cols ∧ s1.x_in = s.x_in
          ∧ s1.y_out.length = s.y_out.length
          ∧ (∀ i < s.op.m_mat.rows, ∃ v,
              rowDot s.op.Uplo s.op.m_mat { data := s.x_in, size := s.op.m_mat.cols } i s.op.m_mat.cols
                = some v ∧ s1.y_out[i]? = some v)
          ∧ (∀ i, s.op.m_mat.rows ≤ i → s1.y_out[i]? = s.y_out[i]?))
      ∧ (s.op.m_mat.rows = s.op.m_mat.cols → s.op.m_mat.rows * s.op.m_mat.rows ≤ s.op.m_mat.data.length →
          s.op.m_mat.cols ≤ s.x_in.length → s.op.m_mat.rows ≤ s.y_out.length →
          ∃ s1, s.call = some s1) := by
  refine ⟨call_changes_only_y_aux s, ?_⟩
  · intro hsq hd hx hy
    have e := eq_squareOp s.op s.op.m_mat.rows rfl hsq.symm
    obtain ⟨y1, h1, _⟩ := perform_op_square s.op.Uplo s.op.m_mat.rows s.op.m_mat.data s.x_in s.y_out _
      (stores_of_length s.op.m_mat.rows s.op.m_mat.data hd) (by omega) hy
    rw [← e] at h1
    exact ⟨{ op := s.op, x_in := s.x_in, y_out := y1 }, by simp only [State.call, h1]⟩

/-- C14: `perform_op` is idempotent on identical inputs.  A second call in a row
leaves exactly the state of the first; two calls on equal operators and equal `x`
write the same `m_mat.rows()` elements of `y` (the dimension that `rows()`
returns); and with a square operator over a buffer of at least `rows * rows`
elements and buffers that are long enough both calls return. -/
theorem call_idempotent (s : State R) :
    (∀ s1, s.call = some s1 → s1.call = some s1)
      ∧ (∀ t s1 t1 : State R, t.op = s.op → t.x_in = s.x_in → s.call = some s1 →
          t.call = some t1 →
          ∀ i < s.op.m_mat.rows, s1.y_out[i]? = t1.y_out[i]?)
      ∧ (s.op.m_mat.rows = s.op.m_mat.cols → s.op.m_mat.rows * s.op.m_mat.rows ≤ s.op.m_mat.data.length →
          s.op.m_mat.cols ≤ s.x_in.length → s.op.m_mat.rows ≤ s.y_out.length →
          ∃ s1, s.call = some s1 ∧ s1.call = some s1) := by
  have hidem : ∀ s1, s.call = some s1 → s1.call = some s1 := by
    intro s1 h
    unfold State.call at h
    split at h
    · next y1 hy1 =>
      simp only [Option.some.injEq] at h
      subst h
      simp only [State.call, perform_op_idem s.op s.x_in s.y_out y1 hy1]
    · cases h
  refine ⟨hidem, ?_, ?_⟩
  · intro t s1 t1 hop hx hs ht i hi
    obtain ⟨_, _, _, _, _, _, hlo, _⟩ := (call_changes_only_y_aux s) s1 hs
    obtain ⟨_, _, _, _, _, _, hlo', _⟩ := (call_changes_only_y_aux t) t1 ht
    rw [hop, hx] at hlo'
    obtain ⟨v, hv, hv2⟩ := hlo i hi
    obtain ⟨w, hw, hw2⟩ := hlo' i hi
    rw [hv] at hw
    cases hw
    rw [hv2, hw2]
  · intro hsq hd hx hy
    have e := eq_squareOp s.op s.op.m_mat.rows rfl hsq.symm
    obtain ⟨y1, h1, _⟩ := perform_op_square s.op.Uplo s.op.m_mat.rows s.op.m_mat.data s.x_in s.y_out _
      (stores_of_length s.op.m_mat.rows s.op.m_mat.data hd) (by omega) hy
    rw [← e] at h1
    have hc : s.call = some { op := s.op, x_in := s.x_in, y_out := y1 } := by
      simp only [State.call, h1]
    exact ⟨_, hc, hidem _ hc⟩

/-- C15: a correctly constructed operator called with correctly sized buffers
never fails.  For every operator built from an `n`-by-`n` view over a buffer of at
least `n * n` elements, every `x` of length `n` and every `y` of length `n`, all
buffer accesses of `perform_op` are in bounds: the call returns a `y` of length
`n`. -/
theorem perform_op_never_fails (Uplo : UpLo) (mat_ : ConstGenericMatrix R) (n : Nat)
    (x y : List R) (hr : mat_.rows = n) (hc : mat_.cols = n)
    (hd : n * n ≤ mat_.data.length) (hx : x.length = n) (hy : y.length = n) :
    ∃ y1, (DenseSymMatProd.ctor Uplo mat_).perform_op x y = some y1 ∧ y1.length = n := by
  have e : DenseSymMatProd.ctor Uplo mat_ = squareOp Uplo mat_.data n := by
    simp [squareOp, DenseSymMatProd.ctor, hr, hc]
  rw [e]
  obtain ⟨y1, h1, hl, _⟩ := perform_op_square Uplo n mat_.data x y _
    (stores_of_length n mat_.data hd) (le_of_eq hx.symm) (le_of_eq hy.symm)
  exact ⟨y1, h1, hl.trans hy⟩

/-- Witness of C15 on the view `exampleStrided`. -/
theorem perform_op_never_fails_witness :
    exampleStrided.rows = 2 ∧ exampleStrided.cols = 2 ∧ 2 * 2 ≤ exampleStrided.data.length
      ∧ exampleX.length = 2 ∧ exampleY.length = 2
      ∧ ∃ y1, (DenseSymMatProd.ctor UpLo.Upper exampleStrided).perform_op exampleX exampleY
          = some y1 ∧ y1.length = 2 :=
  ⟨rfl, rfl, by decide, rfl, rfl,
    perform_op_never_fails UpLo.Upper exampleStrided 2 exampleX exampleY rfl rfl (by decide)
      rfl rfl⟩

/-- C16: the operator applied is self-adjoint, whatever the buffer holds.  For
every stored `n`-by-`n` matrix (symmetric or not), either triangle designation and
all vectors `u`, `v` of length `n`, with `Au` and `Av` the outputs of `perform_op`
on `u` and on `v`, the dot products satisfy `dot v Au = dot u Av`. -/
theorem perform_op_self_adjoint (Uplo : UpLo) (n : Nat) (d u v y y' : List R)
    (M : Nat → Nat → R) (hM : Stores d n n M) (hu : u.length = n) (hv : v.length = n)
    (hy : y.length = n) (hy' : y'.length = n) :
    ∃ Au Av, (squareOp Uplo d n).perform_op u y = some Au
      ∧ (squareOp Uplo d n).perform_op v y' = some Av
      ∧ dot v Au = dot u Av :=
  ⟨_, _, perform_op_square_eq Uplo n d u y M hM (le_of_eq hu.symm) hy,
    perform_op_square_eq Uplo n d v y' M hM (le_of_eq hv.symm) hy',
    dot_denseProduct_symm n (reconstructed Uplo M) (reconstructed_symm Uplo M) u v hu hv⟩

/-- Witness of C16 on the non-symmetric buffer `[1, 2, 3, 4]`. -/
theorem perform_op_self_adjoint_witness :
    Stores exampleBuf 2 2 exampleM
      ∧ ∃ Au Av, (squareOp UpLo.Upper exampleBuf 2).perform_op exampleX exampleY = some Au
        ∧ (squareOp UpLo.Upper exampleBuf 2).perform_op exampleX2 exampleY2 = some Av
        ∧ dot exampleX2 Au = dot exampleX Av :=
  ⟨by decide, perform_op_self_adjoint UpLo.Upper 2 exampleBuf exampleX exampleX2 exampleY
    exampleY2 exampleM (by decide) rfl rfl rfl rfl⟩

/-- C17: the assumed storage layout is contiguous column-major.  For an operator
constructed over a contiguous buffer `d` of `n * n` scalars (outer stride `n`) the
stored entry `(i, j)` is `d[i + j * n]`: the `Lower` operator returns
`y[i] = ∑ j ≤ i, d[i + j * n] * x[j] + ∑ j > i, d[j + i * n] * x[j]` and the `Upper`
operator returns `y[i] = ∑ j ≥ i, d[i + j * n] * x[j] + ∑ j < i, d[j + i * n] * x[j]`,
for every `i < n`. -/
theorem perform_op_column_major (n : Nat) (d x y : List R) (hd : d.length = n * n)
    (hx : x.length = n) (hy : y.length = n) :
    ∃ yL yU, (squareOp UpLo.Lower d n).perform_op x y = some yL
      ∧ (squareOp UpLo.Upper d n).perform_op x y = some yU
      ∧ ∀ i < n,
        yL[i]? = some (∑ j ∈ Finset.range (i + 1), d.getD (i + j * n) 0 * x.getD j 0
            + ∑ j ∈ Finset.Ico (i + 1) n, d.getD (j + i * n) 0 * x.getD j 0)
          ∧ yU[i]? = some (∑ j ∈ Finset.Ico i n, d.getD (i + j * n) 0 * x.getD j 0
            + ∑ j ∈ Finset.range i, d.getD (j + i * n) 0 * x.getD j 0) := by
  have hS := stores_of_length n d (le_of_eq hd.symm)
  obtain ⟨yL, hL, _, hLlo, _⟩ := perform_op_square UpLo.Lower n d x y _ hS (le_of_eq hx.symm)
    (le_of_eq hy.symm)
  obtain ⟨yU, hU, _, hUlo, _⟩ := perform_op_square UpLo.Upper n d x y _ hS (le_of_eq hx.symm)
    (le_of_eq hy.symm)
  refine ⟨yL, yU, hL, hU, fun i hi => ⟨?_, ?_⟩⟩
  · rw [hLlo i hi, sum_reconstructed_lower n _ (fun j => x.getD j 0) i hi]
  · rw [hUlo i hi, sum_reconstructed_upper n _ (fun j => x.getD j 0) i hi]

/-- Witness of C17 on the buffer `[1, 2, 3, 4]`. -/
theorem perform_op_column_major_witness :
    exampleBuf.length = 2 * 2 ∧ exampleX.length = 2 ∧ exampleY.length = 2
      ∧ ∃ yL yU, (squareOp UpLo.Lower exampleBuf 2).perform_op exampleX exampleY = some yL
        ∧ (squareOp UpLo.Upper exampleBuf 2).perform_op exampleX exampleY = some yU
        ∧ ∀ i < 2,
          yL[i]? = some (∑ j ∈ Finset.range (i + 1),
                exampleBuf.getD (i + j * 2) 0 * exampleX.getD j 0
              + ∑ j ∈ Finset.Ico (i + 1) 2, exampleBuf.getD (j + i * 2) 0 * exampleX.getD j 0)
            ∧ yU[i]? = some (∑ j ∈ Finset.Ico i 2,
                exampleBuf.getD (i + j * 2) 0 * exampleX.getD j 0
              + ∑ j ∈ Finset.range i, exampleBuf.getD (j + i * 2) 0 * exampleX.getD j 0) :=
  ⟨rfl, rfl, rfl, perform_op_column_major 2 exampleBuf exampleX exampleY rfl rfl rfl⟩

/-- C18: the `Lower` operator over a stored matrix `M` and the `Upper` operator
over its transpose are the same map: for every stored `n`-by-`n` matrix `M` and
every `x` of length `n`, both `perform_op` calls return the same output vector,
whatever the two output buffers held before: the dense product of `x` with the
matrix reconstructed from the lower triangle of `M`. -/
theorem perform_op_lower_eq_upper_transpose (n : Nat) (d dT x y y' : List R)
    (M : Nat → Nat → R) (hM : Stores d n n M) (hT : Stores dT n n (fun i j => M j i))
    (hx : x.length = n) (hy : y.length = n) (hy' : y'.length = n) :
    (squareOp UpLo.Lower d n).perform_op x y
        = some (denseProduct n (reconstructed UpLo.Lower M) x)
      ∧ (squareOp UpLo.Upper dT n).perform_op x y'
        = some (denseProduct n (reconstructed UpLo.Lower M) x) := by
  refine ⟨perform_op_square_eq UpLo.Lower n d x y M hM (le_of_eq hx.symm) hy, ?_⟩
  rw [perform_op_square_eq UpLo.Upper n dT x y' _ hT (le_of_eq hx.symm) hy']
  congr 1
  exact denseProduct_congr n _ _ x (fun i _ j _ => (reconstructed_transpose M i j).symm)

/-- Witness of C18: the buffer `[1, 2, 3, 4]` and the buffer `[1, 3, 2, 4]` of its
transpose, with two output buffers of different prior contents. -/
theorem perform_op_lower_eq_upper_transpose_witness :
    Stores exampleBuf 2 2 exampleM ∧ Stores exampleBufT 2 2 (fun i j => exampleM j i)
      ∧ (squareOp UpLo.Lower exampleBuf 2).perform_op exampleX exampleY
          = some (denseProduct 2 (reconstructed UpLo.Lower exampleM) exampleX)
      ∧ (squareOp UpLo.Upper exampleBufT 2).perform_op exampleX exampleY2
          = some (denseProduct 2 (reconstructed UpLo.Lower exampleM) exampleX) :=
  ⟨by decide, by decide,
    perform_op_lower_eq_upper_transpose 2 exampleBuf exampleBufT exampleX exampleY exampleY2
      exampleM (by decide) (by decide) rfl rfl rfl⟩

end Claims

end Spectra
